import Mathlib

/-!
Shallow embedding of `src/library.py`, a collection of pandas-based column
transformers (scikit-learn style `fit`/`transform` pairs) plus a seed-search
helper `find_random_state`.

Modelling conventions:
* A pandas `DataFrame` is a `Table α`: an ordered list of named columns, each a
  list of cell values aligned by row position.  `X[c] = vs` (column assignment)
  replaces the column in place when the name exists and appends it at the end
  otherwise, exactly as pandas does; this is `Table.setCol`.
* Python floats are modelled as `ℚ`.  Missing values (`np.nan`) are modelled
  symbolically by the `Val.nan` constructor where the code treats them
  structurally (`pd.get_dummies` drops them; `Series.map` produces them), and
  are outside the model where their behaviour is pure floating-point
  arithmetic.
* A Python `dict` is an association list with unique keys; lookup is first
  match (`dictLookup`).
* Code that raises (`assert`, `KeyError`) returns `Except.error`.
* In-place pandas mutation (needed for the copy-on-write claim) is modelled by
  an explicit heap of tables: `X.copy()` allocates a fresh slot, column
  assignment updates a slot.
-/

namespace Library

/-- An ordered collection of named columns (the pandas DataFrame skeleton). -/
abbrev Table (α : Type) : Type := List (String × List α)

/-- Column names of a table, in order (`X.columns`). -/
def Table.names {α : Type} (t : Table α) : List String := t.map Prod.fst

/-- Column lookup by name, first match (`X[c]` read access). -/
def Table.lookup {α : Type} : Table α → String → Option (List α)
  | [], _ => none
  | (n, vs) :: rest, c => if n = c then some vs else Table.lookup rest c

/-- Column write `X[c] = vs`: pandas replaces the column in place when the name
exists and appends a new column at the end otherwise. -/
def Table.setCol {α : Type} : Table α → String → List α → Table α
  | [], c, vs => [(c, vs)]
  | (n, ws) :: rest, c, vs =>
      if n = c then (c, vs) :: rest else (n, ws) :: Table.setCol rest c vs

/-- `X.drop(columns=[c])`: remove every column named `c`, keeping the order of
the remaining columns. -/
def Table.dropCol {α : Type} (t : Table α) (c : String) : Table α :=
  t.filter (fun p => decide (p.1 ≠ c))

/-- Python `dict` lookup on an association list (first matching key). -/
def dictLookup {α β : Type} [DecidableEq α] : List (α × β) → α → Option β
  | [], _ => none
  | (k, b) :: rest, a => if k = a then some b else dictLookup rest a

/-- The keys of a dictionary. -/
def dictKeys {α β : Type} (d : List (α × β)) : List α := d.map Prod.fst

/-- The values of a dictionary. -/
def dictVals {α β : Type} (d : List (α × β)) : List β := d.map Prod.snd

/-- The inverse mapping of a dictionary (swap every key/value pair). -/
def invDict {α β : Type} (d : List (α × β)) : List (β × α) := d.map Prod.swap

/-- True exactly on `Except.error` (a raised Python exception). -/
def isFailure {ε α : Type} : Except ε α → Bool
  | Except.error _ => true
  | Except.ok _ => false

/-! ### Basic table lemmas -/

theorem lookup_setCol_self {α : Type} (t : Table α) (c : String) (vs : List α) :
    (t.setCol c vs).lookup c = some vs := by
  induction t with
  | nil => simp [Table.setCol, Table.lookup]
  | cons p rest ih =>
      obtain ⟨n, ws⟩ := p
      by_cases h : n = c
      · simp [Table.setCol, Table.lookup, h]
      · simp [Table.setCol, Table.lookup, h, ih]

theorem lookup_setCol_ne {α : Type} (t : Table α) (c c' : String) (vs : List α)
    (h : c' ≠ c) : (t.setCol c vs).lookup c' = t.lookup c' := by
  have hcc : ¬ c = c' := fun hh => h hh.symm
  induction t with
  | nil =>
      simp only [Table.setCol, Table.lookup]
      rw [if_neg hcc]
  | cons p rest ih =>
      obtain ⟨n, ws⟩ := p
      by_cases hn : n = c
      · subst hn
        simp only [Table.setCol, if_pos rfl, Table.lookup]
        rw [if_neg hcc, if_neg hcc]
      · simp only [Table.setCol, if_neg hn, Table.lookup]
        by_cases hn' : n = c'
        · rw [if_pos hn', if_pos hn']
        · rw [if_neg hn', if_neg hn', ih]

theorem setCol_setCol_self {α : Type} (t : Table α) (c : String)
    (vs ws : List α) : (t.setCol c vs).setCol c ws = t.setCol c ws := by
  induction t with
  | nil => simp [Table.setCol]
  | cons p rest ih =>
      obtain ⟨n, us⟩ := p
      by_cases h : n = c
      · simp [Table.setCol, h]
      · simp [Table.setCol, h, ih]

theorem setCol_of_not_mem_names {α : Type} (t : Table α) (c : String)
    (vs : List α) (h : ¬ c ∈ t.names) : t.setCol c vs = t ++ [(c, vs)] := by
  induction t with
  | nil => simp [Table.setCol]
  | cons p rest ih =>
      obtain ⟨n, ws⟩ := p
      simp only [Table.names, List.map_cons, List.mem_cons] at h
      push_neg at h
      have hne : ¬ n = c := fun hh => h.1 hh.symm
      simp [Table.setCol, hne, ih (by simpa [Table.names] using h.2)]

/-! ### `CustomRobustTransformer` (robust scaling, claims C2 and C7)

Source: `CustomRobustTransformer` in `src/library.py`.  `fit` stores the
training column's median and IQR in the attributes `med` and `iqr` (both `None`
until `fit` runs); `transform` raises when either attribute is still `None`,
copies the frame, and — only when the fitted IQR is nonzero — replaces the
target column by `(X[col] - med) / iqr`.  When the IQR is zero the copy is
returned with no column access at all. -/

structure CustomRobustTransformer where
  target_column : String
  iqr : Option ℚ := none
  med : Option ℚ := none

/-- `CustomRobustTransformer.transform`: raise when unfitted; otherwise scale
the target column by `(v - med) / iqr`, or return the (copied) frame untouched
when the fitted IQR is zero.  The target column is only read when `iqr ≠ 0`,
and reading an absent column raises a `KeyError`. -/
def CustomRobustTransformer.transform (self : CustomRobustTransformer)
    (X : Table ℚ) : Except String (Table ℚ) :=
  match self.iqr, self.med with
  | some i, some m =>
      if i = 0 then Except.ok X
      else
        match X.lookup self.target_column with
        | some xs =>
            Except.ok (X.setCol self.target_column (xs.map (fun v => (v - m) / i)))
        | none => Except.error ("KeyError")
  | _, _ =>
      Except.error ("NotFittedError: This CustomRobustTransformer instance is not fitted yet.")

/-- Claim C7: for a `CustomRobustTransformer` fitted with median `m` and
interquartile range `i`, `transform` replaces each value `v` of the target
column with `(v - m) / i` when `i ≠ 0` (so a value equal to the median maps to
`0`), and returns the table entirely unchanged when `i = 0`. -/
theorem C7_robust_scaling (self : CustomRobustTransformer) (m i : ℚ)
    (X : Table ℚ) (xs : List ℚ)
    (hiqr : self.iqr = some i) (hmed : self.med = some m)
    (hX : X.lookup self.target_column = some xs) :
    (i ≠ 0 →
      self.transform X =
        Except.ok (X.setCol self.target_column (xs.map (fun v => (v - m) / i))) ∧
      ∀ v ∈ xs, v = m → (v - m) / i = 0) ∧
    (i = 0 → self.transform X = Except.ok X) := by
  constructor
  · intro hne
    constructor
    · simp [CustomRobustTransformer.transform, hiqr, hmed, hne, hX]
    · intro v _ hv
      simp [hv]
  · intro h0
    simp [CustomRobustTransformer.transform, hiqr, hmed, h0]

/-- Witness for C7 at a concrete fitted scaler (median 2, IQR 4) and table. -/
theorem C7_witness :
    CustomRobustTransformer.transform ⟨("a"), some 4, some 2⟩
        ([(("a"), [(2:ℚ), 6])]) =
      Except.ok (Table.setCol ([(("a"), [(2:ℚ), 6])]) ("a")
        (([(2:ℚ), 6]).map (fun v => (v - 2) / 4))) :=
  ((C7_robust_scaling ⟨("a"), some 4, some 2⟩ 2 4 ([(("a"), [(2:ℚ), 6])])
    ([(2:ℚ), 6]) rfl rfl (by decide)).1 (by norm_num)).1

/-- Claim C2 (amended): `CustomRobustTransformer.transform` fails exactly when
the transformer is unfitted, or when the fitted IQR is nonzero and the target
column is absent; with a zero fitted IQR it succeeds even on a table that
lacks the target column. -/
theorem C2_amended_robust_failure (self : CustomRobustTransformer)
    (X : Table ℚ) :
    isFailure (self.transform X) = true ↔
      (self.iqr = none ∨ self.med = none ∨
        ∃ i, self.iqr = some i ∧ i ≠ 0 ∧ X.lookup self.target_column = none) := by
  rcases self with ⟨tc, io, mo⟩
  rcases io with _ | i
  · simp [CustomRobustTransformer.transform, isFailure]
  · rcases mo with _ | m
    · simp [CustomRobustTransformer.transform, isFailure]
    · by_cases hi : i = 0
      · subst hi
        simp [CustomRobustTransformer.transform, isFailure]
      · rcases hL : Table.lookup X tc with _ | xs
        · simp [CustomRobustTransformer.transform, isFailure, hi, hL]
        · simp [CustomRobustTransformer.transform, isFailure, hi, hL]

/-- Counterexample to claim C2 as stated: a robust scaler fitted on a constant
column (IQR = 0) applied to a table lacking the target column succeeds, though
the claim requires every absent-column call to fail. -/
theorem C2_counterexample :
    Table.lookup ([(("b"), [(1:ℚ)])]) ("a") = none ∧
    CustomRobustTransformer.transform ⟨("a"), some 0, some 0⟩
        ([(("b"), [(1:ℚ)])]) =
      Except.ok ([(("b"), [(1:ℚ)])]) := by
  constructor
  · decide
  · rfl

/-- Witness for the amended C2 at a concrete unfitted transformer. -/
theorem C2_witness :
    isFailure (CustomRobustTransformer.transform ⟨("a"), none, none⟩
      ([] : Table ℚ)) = true :=
  (C2_amended_robust_failure ⟨("a"), none, none⟩ []).mpr (Or.inl rfl)

/-! ### `find_random_state` (claim C1)

Source: `find_random_state` in `src/library.py`.  For each candidate seed
`i` in `range(n)` the code splits, fits the pipeline, trains a KNN classifier
and computes train/test F1 scores; those scores are the results of external
collaborators (sklearn), so the embedding takes them as functions
`trainF1 testF1 : Nat → ℚ` of the seed.  The loop appends
`testF1 i / trainF1 i` to `Var` unless `trainF1 i < 0.1`, in which case the
iteration is skipped (`continue`).  The function then returns
`np.abs(np.array(Var) - np.mean(Var)).argmin()` — the position, inside the
skip-filtered list `Var`, of the ratio closest to the mean — together with
`Var` itself. -/

/-- The seeds that are not skipped: `trainF1 i < 0.1` is the skip condition. -/
def validSeeds (trainF1 : Nat → ℚ) (n : Nat) : List Nat :=
  (List.range n).filter (fun i => decide (¬ trainF1 i < 1 / 10))

/-- The list `Var` of test/train F1 ratios of the valid seeds, in seed order. -/
def f1Ratios (trainF1 testF1 : Nat → ℚ) (n : Nat) : List ℚ :=
  (validSeeds trainF1 n).map (fun i => testF1 i / trainF1 i)

/-- `np.mean` of a list of rationals. -/
def listMean (xs : List ℚ) : ℚ := xs.sum / (xs.length : ℚ)

/-- `np.abs(np.array(xs) - m).argmin()`: the first position in `xs` whose
element has minimal absolute deviation from `m` (numpy's `argmin` returns the
first occurrence of the minimum; it raises on an empty array, a case the
claims never exercise, where this model returns 0). -/
def argminAbs (m : ℚ) : List ℚ → Nat
  | [] => 0
  | [_] => 0
  | x :: y :: rest =>
      let j := argminAbs m (y :: rest)
      if |x - m| ≤ |(y :: rest).getD j 0 - m| then 0 else j + 1

/-- `find_random_state`: returns the `argmin` position inside the filtered
ratio list `Var`, together with `Var`. -/
def find_random_state (trainF1 testF1 : Nat → ℚ) (n : Nat) : Nat × List ℚ :=
  let ratios := f1Ratios trainF1 testF1 n
  (argminAbs (listMean ratios) ratios, ratios)

/-- Claim C1: the first result of `find_random_state` is an index into the
skip-filtered ratio list, not a seed value.  With `n = 2`, where seed 0 is
skipped (train F1 = 1/20 < 1/10) and seed 1 is the only valid sample, the
function returns 0 even though the only seed whose ratio is closest to the
mean is seed 1 — so the returned value is not the seed whose ratio is closest
to the mean over the valid samples.  (The second result, the full ratio list
of the valid samples, is as claimed.) -/
theorem C1_find_random_state_returns_filtered_index :
    find_random_state (fun i => if i = 0 then 1 / 20 else 1) (fun _ => 1) 2 =
      (0, [1]) ∧
    validSeeds (fun i => if i = 0 then 1 / 20 else 1) 2 = [1] := by
  constructor
  · norm_num [find_random_state, f1Ratios, validSeeds, List.range_succ, listMean,
      argminAbs]
  · norm_num [validSeeds, List.range_succ]

/-! ### `CustomMappingTransformer` (claim C3)

Source: `CustomMappingTransformer.transform` in `src/library.py`: assert the
mapping column exists, copy the frame, and apply
`X_[col].replace(mapping_dict)` — every cell equal to a dictionary key is
replaced by that key's image (pandas applies the dictionary simultaneously,
without chaining), every other cell passes through unchanged. -/

/-- One cell of `Series.replace(mapping_dict)`: a key is replaced by its
image, any other value passes through unchanged. -/
def replaceOne {α : Type} [DecidableEq α] (d : List (α × α)) (v : α) : α :=
  (dictLookup d v).getD v

/-- `Series.replace(mapping_dict)` over a whole column. -/
def replaceVals {α : Type} [DecidableEq α] (d : List (α × α))
    (xs : List α) : List α :=
  xs.map (replaceOne d)

structure CustomMappingTransformer (α : Type) where
  mapping_column : String
  mapping_dict : List (α × α)

/-- `CustomMappingTransformer.transform`: assert the column exists, copy, and
replace the column through the mapping dictionary. -/
def CustomMappingTransformer.transform {α : Type} [DecidableEq α]
    (self : CustomMappingTransformer α) (X : Table α) :
    Except String (Table α) :=
  match X.lookup self.mapping_column with
  | none => Except.error ("CustomMappingTransformer.transform unknown column")
  | some xs =>
      Except.ok (X.setCol self.mapping_column (replaceVals self.mapping_dict xs))

/-! Dictionary lemmas used for the round-trip analysis. -/

theorem dictLookup_mem_vals {α β : Type} [DecidableEq α] (d : List (α × β))
    (a : α) (b : β) (h : dictLookup d a = some b) : b ∈ dictVals d := by
  induction d with
  | nil => simp [dictLookup] at h
  | cons p rest ih =>
      obtain ⟨k, v⟩ := p
      by_cases hk : k = a
      · simp only [dictLookup, if_pos hk, Option.some.injEq] at h
        simp [dictVals, h]
      · simp only [dictLookup, if_neg hk] at h
        simp only [dictVals, List.map_cons, List.mem_cons]
        exact Or.inr (by simpa [dictVals] using ih h)

theorem dictLookup_eq_none_of_not_mem_keys {α β : Type} [DecidableEq α]
    (d : List (α × β)) (a : α) (h : a ∉ dictKeys d) : dictLookup d a = none := by
  induction d with
  | nil => rfl
  | cons p rest ih =>
      obtain ⟨k, v⟩ := p
      rw [show dictKeys ((k, v) :: rest) = k :: dictKeys rest from rfl,
        List.mem_cons] at h
      push_neg at h
      obtain ⟨h1, h2⟩ := h
      have hk : ¬ k = a := fun hh => h1 hh.symm
      simp only [dictLookup, if_neg hk]
      exact ih h2

theorem dictLookup_mem_keys {α β : Type} [DecidableEq α] (d : List (α × β))
    (a : α) (h : a ∈ dictKeys d) : ∃ b, dictLookup d a = some b := by
  induction d with
  | nil => simp [dictKeys] at h
  | cons p rest ih =>
      obtain ⟨k, v⟩ := p
      by_cases hk : k = a
      · exact ⟨v, by simp [dictLookup, hk]⟩
      · simp only [dictKeys, List.map_cons, List.mem_cons] at h
        rcases h with h | h
        · exact absurd h.symm hk
        · obtain ⟨b, hb⟩ := ih (by simpa [dictKeys] using h)
          exact ⟨b, by simp [dictLookup, hk, hb]⟩

theorem dictKeys_invDict {α β : Type} (d : List (α × β)) :
    dictKeys (invDict d) = dictVals d := by
  simp [dictKeys, dictVals, invDict, List.map_map]

theorem dictLookup_invDict {α β : Type} [DecidableEq α] [DecidableEq β]
    (d : List (α × β)) (a : α) (b : β) (hvals : (dictVals d).Nodup)
    (h : dictLookup d a = some b) : dictLookup (invDict d) b = some a := by
  induction d with
  | nil => simp [dictLookup] at h
  | cons p rest ih =>
      obtain ⟨k, v⟩ := p
      simp only [dictVals, List.map_cons, List.nodup_cons] at hvals
      by_cases hk : k = a
      · simp only [dictLookup, if_pos hk, Option.some.injEq] at h
        subst h
        simp [invDict, dictLookup, hk]
      · simp only [dictLookup, if_neg hk] at h
        have hbv : b ∈ dictVals rest := dictLookup_mem_vals rest a b h
        have hvb : ¬ v = b := fun hh => hvals.1 (hh ▸ hbv)
        simp only [invDict, List.map_cons, Prod.swap_prod_mk, dictLookup,
          if_neg hvb]
        exact ih hvals.2 h

theorem replaceOne_roundTrip {α : Type} [DecidableEq α] (d : List (α × α))
    (v : α) (hvals : (dictVals d).Nodup)
    (hcond : v ∈ dictVals d → v ∈ dictKeys d) :
    replaceOne (invDict d) (replaceOne d v) = v := by
  by_cases hk : v ∈ dictKeys d
  · obtain ⟨w, hw⟩ := dictLookup_mem_keys d v hk
    have h2 : dictLookup (invDict d) w = some v := dictLookup_invDict d v w hvals hw
    unfold replaceOne
    rw [hw]
    simp only [Option.getD_some]
    rw [h2]
    rfl
  · have hnv : v ∉ dictKeys (invDict d) := by
      rw [dictKeys_invDict]
      exact fun hv => hk (hcond hv)
    unfold replaceOne
    rw [dictLookup_eq_none_of_not_mem_keys d v hk]
    simp only [Option.getD_none]
    rw [dictLookup_eq_none_of_not_mem_keys (invDict d) v hnv]
    rfl

theorem replaceVals_roundTrip {α : Type} [DecidableEq α] (d : List (α × α))
    (xs : List α) (hvals : (dictVals d).Nodup)
    (hcond : ∀ v ∈ xs, v ∈ dictVals d → v ∈ dictKeys d) :
    replaceVals (invDict d) (replaceVals d xs) = xs := by
  induction xs with
  | nil => rfl
  | cons x t ih =>
      have hx := replaceOne_roundTrip d x hvals (hcond x (List.mem_cons_self x t))
      have ht := ih (fun v hv => hcond v (List.mem_cons_of_mem x hv))
      simpa [replaceVals, hx] using ht

/-- Claim C3 (amended): for a table containing the mapping column,
`transform` replaces every cell that is a key of the mapping dictionary by
its image, leaves every other cell (and every other column) unchanged, and —
when the dictionary is a bijection (pairwise-distinct values) AND no column
cell lies in the dictionary's range without lying in its domain — applying
`transform` with the dictionary and then with its inverse restores the
original column.  (Without the extra range condition the round trip fails;
see the counterexample.) -/
theorem C3_amended_mapping (α : Type) [DecidableEq α]
    (self : CustomMappingTransformer α) (X : Table α) (xs : List α)
    (hX : X.lookup self.mapping_column = some xs) :
    (self.transform X =
      Except.ok (X.setCol self.mapping_column (replaceVals self.mapping_dict xs))) ∧
    (∀ v w, dictLookup self.mapping_dict v = some w →
      replaceOne self.mapping_dict v = w) ∧
    (∀ v, dictLookup self.mapping_dict v = none →
      replaceOne self.mapping_dict v = v) ∧
    (replaceVals self.mapping_dict xs = xs.map (replaceOne self.mapping_dict)) ∧
    (∀ c, c ≠ self.mapping_column →
      (X.setCol self.mapping_column (replaceVals self.mapping_dict xs)).lookup c =
        X.lookup c) ∧
    ((dictVals self.mapping_dict).Nodup →
      (∀ v ∈ xs, v ∈ dictVals self.mapping_dict → v ∈ dictKeys self.mapping_dict) →
      replaceVals (invDict self.mapping_dict) (replaceVals self.mapping_dict xs) = xs) := by
  refine ⟨?_, ?_, ?_, rfl, ?_, ?_⟩
  · simp [CustomMappingTransformer.transform, hX]
  · intro v w hw
    simp [replaceOne, hw]
  · intro v hv
    simp [replaceOne, hv]
  · intro c hc
    exact lookup_setCol_ne X self.mapping_column c _ hc
  · intro hvals hcond
    exact replaceVals_roundTrip self.mapping_dict xs hvals hcond

/-- Counterexample to claim C3 as stated: the dictionary `{'a': 'b'}` is a
bijection (distinct keys, distinct values), yet on the column `['b']` the
round trip with the inverse mapping `{'b': 'a'}` produces `['a']`, not the
original `['b']` — the unmapped cell `'b'` lies in the mapping's range, so
the inverse pass moves it. -/
theorem C3_counterexample :
    (dictKeys ([(("a"), ("b"))] : List (String × String))).Nodup ∧
    (dictVals ([(("a"), ("b"))] : List (String × String))).Nodup ∧
    CustomMappingTransformer.transform ⟨("c"), [(("a"), ("b"))]⟩
        ([(("c"), [("b")])]) = Except.ok ([(("c"), [("b")])]) ∧
    CustomMappingTransformer.transform ⟨("c"), invDict ([(("a"), ("b"))])⟩
        ([(("c"), [("b")])]) = Except.ok ([(("c"), [("a")])]) ∧
    (("a") : String) ≠ ("b") := by
  refine ⟨by decide, by decide, rfl, rfl, by decide⟩

/-- Witness for the amended C3 at a concrete dictionary and column satisfying
the bijection and range conditions. -/
theorem C3_witness :
    replaceVals (invDict ([(("x"), ("y"))]))
      (replaceVals ([(("x"), ("y"))]) ([("x"), ("z")])) = [("x"), ("z")] :=
  (C3_amended_mapping String ⟨("c"), [(("x"), ("y"))]⟩
      ([(("c"), [("x"), ("z")])]) ([("x"), ("z")]) rfl).2.2.2.2.2
    (by decide) (by decide)

/-! ### Distinct values (`value_counts` / `unique` keys) -/

/-- First-occurrence list of distinct values, accumulator version. -/
def distinctsFrom {α : Type} [DecidableEq α] (seen : List α) :
    List α → List α
  | [] => []
  | x :: xs =>
      if x ∈ seen then distinctsFrom seen xs
      else x :: distinctsFrom (x :: seen) xs

/-- The distinct values of a list, in first-occurrence order (the key set of
`value_counts().to_dict()`). -/
def distincts {α : Type} [DecidableEq α] (xs : List α) : List α :=
  distinctsFrom [] xs

theorem mem_distinctsFrom {α : Type} [DecidableEq α] (xs : List α) :
    ∀ (seen : List α) (v : α),
      v ∈ distinctsFrom seen xs ↔ (v ∈ xs ∧ v ∉ seen) := by
  induction xs with
  | nil =>
      intro seen v
      simp [distinctsFrom]
  | cons x t ih =>
      intro seen v
      by_cases hx : x ∈ seen
      · rw [distinctsFrom, if_pos hx, ih]
        constructor
        · rintro ⟨hv, hs⟩
          exact ⟨List.mem_cons_of_mem x hv, hs⟩
        · rintro ⟨hv, hs⟩
          rcases List.mem_cons.mp hv with h | h
          · exact absurd (h.symm ▸ hx) hs
          · exact ⟨h, hs⟩
      · rw [distinctsFrom, if_neg hx, List.mem_cons, ih]
        constructor
        · rintro (h | ⟨hv, hs⟩)
          · exact ⟨by rw [h]; exact List.mem_cons_self x t, by rw [h]; exact hx⟩
          · exact ⟨List.mem_cons_of_mem x hv,
              fun hseen => hs (List.mem_cons_of_mem x hseen)⟩
        · rintro ⟨hv, hs⟩
          by_cases hvx : v = x
          · exact Or.inl hvx
          · rcases List.mem_cons.mp hv with h | h
            · exact absurd h hvx
            · refine Or.inr ⟨h, fun hmem => ?_⟩
              rcases List.mem_cons.mp hmem with h2 | h2
              · exact hvx h2
              · exact hs h2

theorem mem_distincts {α : Type} [DecidableEq α] (xs : List α) (v : α) :
    v ∈ distincts xs ↔ v ∈ xs := by
  simp [distincts, mem_distinctsFrom]

theorem nodup_distinctsFrom {α : Type} [DecidableEq α] (xs : List α) :
    ∀ seen : List α, (distinctsFrom seen xs).Nodup := by
  induction xs with
  | nil =>
      intro seen
      simp [distinctsFrom]
  | cons x t ih =>
      intro seen
      by_cases hx : x ∈ seen
      · rw [distinctsFrom, if_pos hx]
        exact ih seen
      · rw [distinctsFrom, if_neg hx]
        refine List.nodup_cons.mpr ⟨fun hmem => ?_, ih (x :: seen)⟩
        exact ((mem_distinctsFrom t (x :: seen) x).mp hmem).2
          (List.mem_cons_self x seen)

theorem nodup_distincts {α : Type} [DecidableEq α] (xs : List α) :
    (distincts xs).Nodup := nodup_distinctsFrom xs []

theorem distincts_ne_nil {α : Type} [DecidableEq α] (xs : List α)
    (h : xs ≠ []) : distincts xs ≠ [] := by
  cases xs with
  | nil => exact absurd rfl h
  | cons x t =>
      intro hd
      have hx : x ∈ distincts (x :: t) :=
        (mem_distincts (x :: t) x).mpr (List.mem_cons_self x t)
      rw [hd] at hx
      exact List.not_mem_nil x hx

/-- Lookup in a dictionary built by mapping a function over a key list. -/
theorem dictLookup_map_fun {α β : Type} [DecidableEq α] (l : List α)
    (f : α → β) (v : α) :
    dictLookup (l.map (fun c => (c, f c))) v =
      if v ∈ l then some (f v) else none := by
  induction l with
  | nil => simp [dictLookup]
  | cons x t ih =>
      simp only [List.map_cons, dictLookup]
      by_cases hx : x = v
      · subst hx
        simp [List.mem_cons]
      · rw [if_neg hx, ih]
        by_cases hv : v ∈ t
        · rw [if_pos hv, if_pos (List.mem_cons_of_mem x hv)]
        · rw [if_neg hv, if_neg (fun h => by
            rcases List.mem_cons.mp h with h | h
            · exact hx h.symm
            · exact hv h)]

/-! ### `CustomTargetTransformer` (claim C4)

Source: `CustomTargetTransformer` in `src/library.py`.  `fit(X, y)` asserts
`len(X) == len(y)`, computes the global label mean, the per-category counts
(`value_counts`) and per-category label means (`groupby(col).mean()`), and
stores `encoding_dict_[cat] = (n * cat_mean + smoothing * global_mean) /
(n + smoothing)`.  `transform` asserts `self.encoding_dict_` — the *truthiness*
of the dictionary, so an empty fitted dictionary is treated as unfitted — then
copies the frame and maps the target column through the dictionary;
`Series.map` yields `np.nan` (here `Option.none`) for keys not in the
dictionary.  The model is at column level: the target column's cells are the
list `xs`/`zs`, the labels the list `ys`; the frame copy and the
other-columns-untouched aspect are covered by the heap model of claim C9. -/

/-- `value_counts()[c]`: occurrence count of category `c`, as a rational. -/
def catCount {α : Type} [DecidableEq α] (xs : List α) (c : α) : ℚ :=
  ((xs.filter (fun x => decide (x = c))).length : ℚ)

/-- Sum of the labels at positions where the category column equals `c` (the
numerator of the groupby mean). -/
def catLabelSum {α : Type} [DecidableEq α] : List α → List ℚ → α → ℚ
  | [], _, _ => 0
  | _ :: _, [], _ => 0
  | x :: xs, q :: qs, c => (if x = c then q else 0) + catLabelSum xs qs c

/-- `groupby(col).mean()[c]`: the mean label of category `c`. -/
def catMean {α : Type} [DecidableEq α] (xs : List α) (ys : List ℚ)
    (c : α) : ℚ :=
  catLabelSum xs ys c / catCount xs c

/-- The overall label mean. -/
def globalMean (ys : List ℚ) : ℚ := ys.sum / (ys.length : ℚ)

/-- The additive-smoothing blend `(n·cat_mean + s·global_mean) / (n + s)`. -/
def smoothedMean (n cm s gm : ℚ) : ℚ := (n * cm + s * gm) / (n + s)

/-- The fitted `encoding_dict_`: one entry per distinct category observed at
fit time, holding its smoothed mean. -/
def targetEncoding {α : Type} [DecidableEq α] (xs : List α) (ys : List ℚ)
    (s : ℚ) : List (α × ℚ) :=
  (distincts xs).map
    (fun c => (c, smoothedMean (catCount xs c) (catMean xs ys c) s (globalMean ys)))

structure CustomTargetTransformer (α : Type) where
  col : String
  smoothing : ℚ := 10
  global_mean_ : Option ℚ := none
  encoding_dict_ : List (α × ℚ) := []

/-- `CustomTargetTransformer.fit` on the target column `xs` and labels `ys`
(the `len(X) == len(y)` assert is a precondition of the claims). -/
def CustomTargetTransformer.fit {α : Type} [DecidableEq α]
    (self : CustomTargetTransformer α) (xs : List α) (ys : List ℚ) :
    CustomTargetTransformer α :=
  { self with
    global_mean_ := some (globalMean ys),
    encoding_dict_ := targetEncoding xs ys self.smoothing }

/-- `CustomTargetTransformer.transform` on the target column: raise when
`self.encoding_dict_` is falsy (empty), otherwise map each cell through the
dictionary, `none` (np.nan) for unseen categories. -/
def CustomTargetTransformer.transformCol {α : Type} [DecidableEq α]
    (self : CustomTargetTransformer α) (zs : List α) :
    Except String (List (Option ℚ)) :=
  match self.encoding_dict_ with
  | [] => Except.error ("CustomTargetTransformer.transform not fitted")
  | _ :: _ => Except.ok (zs.map (dictLookup self.encoding_dict_))

/-- Claim C4 (amended): after fitting on a nonempty column, every observed
category is encoded as `(n·cat_mean + s·global_mean)/(n + s)`, transform maps
each cell to its category's smoothed mean, and unseen categories map to the
missing sentinel (`none`) without error.  (When fit observed no category at
all, transform instead aborts as unfitted; see the counterexample.) -/
theorem C4_amended_target_encoding (α : Type) [DecidableEq α]
    (self : CustomTargetTransformer α) (xs : List α) (ys : List ℚ)
    (_hlen : xs.length = ys.length) (hne : xs ≠ []) :
    (∀ c ∈ xs,
      dictLookup (self.fit xs ys).encoding_dict_ c =
        some (smoothedMean (catCount xs c) (catMean xs ys c) self.smoothing
          (globalMean ys))) ∧
    (∀ c, c ∉ xs → dictLookup (self.fit xs ys).encoding_dict_ c = none) ∧
    (∀ zs : List α, (self.fit xs ys).transformCol zs =
      Except.ok (zs.map (dictLookup (self.fit xs ys).encoding_dict_))) := by
  refine ⟨?_, ?_, ?_⟩
  · intro c hc
    show dictLookup (targetEncoding xs ys self.smoothing) c = _
    rw [targetEncoding, dictLookup_map_fun,
      if_pos ((mem_distincts xs c).mpr hc)]
  · intro c hc
    show dictLookup (targetEncoding xs ys self.smoothing) c = none
    rw [targetEncoding, dictLookup_map_fun,
      if_neg (fun hm => hc ((mem_distincts xs c).mp hm))]
  · intro zs
    have hd : (self.fit xs ys).encoding_dict_ ≠ [] := by
      show targetEncoding xs ys self.smoothing ≠ []
      rw [targetEncoding]
      intro hm
      exact distincts_ne_nil xs hne (List.map_eq_nil_iff.mp hm)
    rcases he : (self.fit xs ys).encoding_dict_ with _ | ⟨p, rest⟩
    · exact absurd he hd
    · rw [CustomTargetTransformer.transformCol, he]

/-- Counterexample to claim C4 as stated: fitting on an empty (zero-row)
column and equal-length labels leaves the encoding dictionary empty, and the
subsequent transform on an unseen category aborts as "not fitted" instead of
returning the missing sentinel without error. -/
theorem C4_counterexample :
    targetEncoding ([] : List String) ([] : List ℚ) 10 = [] ∧
    isFailure ((CustomTargetTransformer.fit ⟨("cat"), 10, none, []⟩
      ([] : List String) ([] : List ℚ)).transformCol ([("c")])) = true :=
  ⟨rfl, rfl⟩

/-- Witness for the amended C4 at the worked spec example: categories
`['a','a','b']`, labels `[1,1,0]`, smoothing 10 — category `'a'` is encoded as
`(2·1 + 10·(2/3)) / 12 = 13/18 ≈ 0.722`. -/
theorem C4_witness :
    dictLookup (CustomTargetTransformer.fit ⟨("cat"), 10, none, []⟩
        ([("a"), ("a"), ("b")]) ([(1:ℚ), 1, 0])).encoding_dict_ ("a") =
      some (13 / 18) := by
  have h := (C4_amended_target_encoding String ⟨("cat"), 10, none, []⟩
      ([("a"), ("a"), ("b")]) ([(1:ℚ), 1, 0]) rfl (by decide)).1 ("a")
    (by decide)
  rw [h]
  norm_num [smoothedMean, catMean, globalMean,
    show catCount ([("a"), ("a"), ("b")]) ("a") = ((2:Nat) : ℚ) from rfl,
    show catLabelSum ([("a"), ("a"), ("b")]) ([(1:ℚ), 1, 0]) ("a") =
      (1:ℚ) + (1 + (0 + 0)) from rfl,
    show ([(1:ℚ), 1, 0]).sum = (1:ℚ) + (1 + (0 + 0)) from rfl,
    show (([(1:ℚ), 1, 0]).length : ℚ) = ((3:Nat) : ℚ) from rfl]

/-! ### `CustomSigma3Transformer` and `CustomTukeyTransformer` (claim C6)

Source: both transformers clip the numeric target column into a closed
interval with `Series.clip(lower, upper)`.  `CustomSigma3Transformer.fit`
stores `low_wall = mean - 3*std` and `high_wall = mean + 3*std` (both `None`
until then); its `transform` asserts both walls are set and the column
exists, copies, and clips.  `CustomTukeyTransformer.fit` stores the four
fence bounds `inner_low = Q1 - 1.5*IQR`, `inner_high = Q3 + 1.5*IQR`,
`outer_low = Q1 - 3*IQR`, `outer_high = Q3 + 3*IQR`; its `transform` asserts
the inner pair is set and clips with the pair selected by the `fence`
construction choice.  The fitted bounds are abstract parameters here (their
values come from float statistics); fit always produces an ordered pair
(`std ≥ 0`, `IQR ≥ 0`), which the claim theorem takes as the hypothesis
`lo ≤ hi`.  `Series.clip` sends `v` to `min hi (max lo v)`. -/

/-- `Series.clip(lo, hi)` on one cell. -/
def clipQ (lo hi v : ℚ) : ℚ := min hi (max lo v)

structure CustomSigma3Transformer where
  target_column : String
  high_wall : Option ℚ := none
  low_wall : Option ℚ := none

/-- `CustomSigma3Transformer.transform`: assert fitted, assert the column
exists, copy, clip the column into `[low_wall, high_wall]`. -/
def CustomSigma3Transformer.transform (self : CustomSigma3Transformer)
    (X : Table ℚ) : Except String (Table ℚ) :=
  match self.low_wall, self.high_wall with
  | some lo, some hi =>
      match X.lookup self.target_column with
      | some xs =>
          Except.ok (X.setCol self.target_column (xs.map (clipQ lo hi)))
      | none => Except.error ("unknown column")
  | _, _ => Except.error ("Sigma3Transformer.fit has not been called yet.")

inductive Fence
  | inner
  | outer
  deriving DecidableEq

structure CustomTukeyTransformer where
  target_column : String
  fence : Fence
  inner_low : Option ℚ := none
  outer_low : Option ℚ := none
  inner_high : Option ℚ := none
  outer_high : Option ℚ := none

/-- The bound pair `transform` clips with, as selected by the fence choice
(defined only when the fields it reads are fitted: the asserted inner pair,
plus the outer pair when the outer fence is selected). -/
def CustomTukeyTransformer.selected (self : CustomTukeyTransformer) :
    Option (ℚ × ℚ) :=
  match self.fence with
  | Fence.inner =>
      match self.inner_low, self.inner_high with
      | some il, some iHigh => some (il, iHigh)
      | _, _ => none
  | Fence.outer =>
      match self.inner_low, self.inner_high, self.outer_low, self.outer_high with
      | some _, some _, some ol, some oh => some (ol, oh)
      | _, _, _, _ => none

/-- `CustomTukeyTransformer.transform`: assert the inner pair is fitted,
assert the column exists, copy, clip with the fence-selected pair.  (In the
source an unfitted outer pair under `fence='outer'` would crash inside
`clip`; fit always sets all four bounds together.) -/
def CustomTukeyTransformer.transform (self : CustomTukeyTransformer)
    (X : Table ℚ) : Except String (Table ℚ) :=
  match self.inner_low, self.inner_high with
  | some il, some iHigh =>
      match X.lookup self.target_column with
      | some xs =>
          match self.fence with
          | Fence.inner =>
              Except.ok (X.setCol self.target_column (xs.map (clipQ il iHigh)))
          | Fence.outer =>
              match self.outer_low, self.outer_high with
              | some ol, some oh =>
                  Except.ok (X.setCol self.target_column (xs.map (clipQ ol oh)))
              | _, _ => Except.error ("outer fence bounds not fitted")
      | none => Except.error ("unknown column")
  | _, _ => Except.error ("TukeyTransformer.fit has not been called yet.")

theorem clipQ_mem (lo hi v : ℚ) (h : lo ≤ hi) :
    lo ≤ clipQ lo hi v ∧ clipQ lo hi v ≤ hi :=
  ⟨le_min h (le_max_left lo v), min_le_left hi _⟩

theorem clipQ_id (lo hi v : ℚ) (h1 : lo ≤ v) (h2 : v ≤ hi) :
    clipQ lo hi v = v := by
  rw [clipQ, max_eq_right h1, min_eq_right h2]

theorem clipQ_idem (lo hi v : ℚ) (h : lo ≤ hi) :
    clipQ lo hi (clipQ lo hi v) = clipQ lo hi v :=
  clipQ_id lo hi _ (clipQ_mem lo hi v h).1 (clipQ_mem lo hi v h).2

theorem map_clip_idem (lo hi : ℚ) (h : lo ≤ hi) (xs : List ℚ) :
    xs.map (clipQ lo hi ∘ clipQ lo hi) = xs.map (clipQ lo hi) := by
  induction xs with
  | nil => rfl
  | cons x t ih => simp [clipQ_idem lo hi x h, ih]

/-- Claim C6: for a fitted sigma-clipper with walls `[lo, hi]` and a fitted
Tukey transformer whose selected fence pair is `[tlo, thi]`, transform clips
the target column into the closed interval, leaves in-bound values unchanged,
and is idempotent (`transform (transform X) = transform X`). -/
theorem C6_clip_bounds_idempotent (s3 : CustomSigma3Transformer)
    (lo hi : ℚ) (tk : CustomTukeyTransformer) (tlo thi : ℚ)
    (X : Table ℚ) (xs : List ℚ) (Y : Table ℚ) (ys : List ℚ)
    (hs3lo : s3.low_wall = some lo) (hs3hi : s3.high_wall = some hi)
    (hlo : lo ≤ hi) (hX : X.lookup s3.target_column = some xs)
    (htb : tk.selected = some (tlo, thi)) (htlo : tlo ≤ thi)
    (hY : Y.lookup tk.target_column = some ys) :
    (s3.transform X =
        Except.ok (X.setCol s3.target_column (xs.map (clipQ lo hi))) ∧
      (∀ w ∈ xs.map (clipQ lo hi), lo ≤ w ∧ w ≤ hi) ∧
      (∀ v ∈ xs, lo ≤ v → v ≤ hi → clipQ lo hi v = v) ∧
      (∀ Z, s3.transform X = Except.ok Z → s3.transform Z = Except.ok Z)) ∧
    (tk.transform Y =
        Except.ok (Y.setCol tk.target_column (ys.map (clipQ tlo thi))) ∧
      (∀ w ∈ ys.map (clipQ tlo thi), tlo ≤ w ∧ w ≤ thi) ∧
      (∀ v ∈ ys, tlo ≤ v → v ≤ thi → clipQ tlo thi v = v) ∧
      (∀ Z, tk.transform Y = Except.ok Z → tk.transform Z = Except.ok Z)) := by
  have hs3 : s3.transform X =
      Except.ok (X.setCol s3.target_column (xs.map (clipQ lo hi))) := by
    rw [CustomSigma3Transformer.transform, hs3lo, hs3hi, hX]
  have htk : tk.transform Y =
      Except.ok (Y.setCol tk.target_column (ys.map (clipQ tlo thi))) := by
    rcases tk with ⟨tc, fence, il, ol, iHigh, oh⟩
    cases fence
    · rcases il with _ | ilv <;> rcases iHigh with _ | ihv <;>
        simp [CustomTukeyTransformer.selected] at htb
      obtain ⟨h1, h2⟩ := htb
      subst h1
      subst h2
      simpa [CustomTukeyTransformer.transform] using (by rw [hY] : _)
    · rcases il with _ | ilv <;> rcases iHigh with _ | ihv <;>
        rcases ol with _ | olv <;> rcases oh with _ | ohv <;>
        simp [CustomTukeyTransformer.selected] at htb
      obtain ⟨h1, h2⟩ := htb
      subst h1
      subst h2
      simpa [CustomTukeyTransformer.transform] using (by rw [hY] : _)
  refine ⟨⟨hs3, ?_, ?_, ?_⟩, ⟨htk, ?_, ?_, ?_⟩⟩
  · intro w hw
    obtain ⟨v, _, hv⟩ := List.mem_map.mp hw
    exact hv ▸ clipQ_mem lo hi v hlo
  · intro v _ h1 h2
    exact clipQ_id lo hi v h1 h2
  · intro Z hZ
    rw [hs3] at hZ
    obtain rfl := Except.ok.inj hZ
    simp [CustomSigma3Transformer.transform, hs3lo, hs3hi,
      lookup_setCol_self, map_clip_idem _ _ hlo, setCol_setCol_self]
  · intro w hw
    obtain ⟨v, _, hv⟩ := List.mem_map.mp hw
    exact hv ▸ clipQ_mem tlo thi v htlo
  · intro v _ h1 h2
    exact clipQ_id tlo thi v h1 h2
  · intro Z hZ
    rw [htk] at hZ
    obtain rfl := Except.ok.inj hZ
    rcases tk with ⟨tc, fence, il, ol, iHigh, oh⟩
    cases fence
    · rcases il with _ | ilv <;> rcases iHigh with _ | ihv <;>
        simp [CustomTukeyTransformer.selected] at htb
      obtain ⟨h1, h2⟩ := htb
      subst h1
      subst h2
      simp [CustomTukeyTransformer.transform, lookup_setCol_self,
        map_clip_idem _ _ htlo, setCol_setCol_self]
    · rcases il with _ | ilv <;> rcases iHigh with _ | ihv <;>
        rcases ol with _ | olv <;> rcases oh with _ | ohv <;>
        simp [CustomTukeyTransformer.selected] at htb
      obtain ⟨h1, h2⟩ := htb
      subst h1
      subst h2
      simp [CustomTukeyTransformer.transform, lookup_setCol_self,
        map_clip_idem _ _ htlo, setCol_setCol_self]

/-- Witness for C6 at a concrete fitted sigma-clipper (walls `[0, 10]`) and
a concrete table. -/
theorem C6_witness :
    CustomSigma3Transformer.transform ⟨("a"), some 10, some 0⟩
        ([(("a"), [(-5:ℚ), 5, 20])]) =
      Except.ok (Table.setCol ([(("a"), [(-5:ℚ), 5, 20])]) ("a")
        (([(-5:ℚ), 5, 20]).map (clipQ 0 10))) :=
  (C6_clip_bounds_idempotent ⟨("a"), some 10, some 0⟩ 0 10
    ⟨("b"), Fence.inner, some 0, some (-100), some 10, some 100⟩ 0 10
    ([(("a"), [(-5:ℚ), 5, 20])]) ([(-5:ℚ), 5, 20])
    ([(("b"), [(3:ℚ)])]) ([(3:ℚ)])
    rfl rfl (by norm_num) rfl rfl (by norm_num) rfl).1.1

/-! ### Heterogeneous cell values

`Val` models a pandas object cell: a float (`num`), a string (`str`), or the
missing marker `np.nan` (`nan`). -/

inductive Val : Type
  | num : ℚ → Val
  | str : String → Val
  | nan : Val
  deriving DecidableEq

/-- True exactly on the missing marker `np.nan`. -/
def isMissing : Val → Bool
  | Val.nan => true
  | _ => false

/-- True exactly on string cells. -/
def Val.isStr : Val → Bool
  | Val.str _ => true
  | _ => false

/-- Python `str(value)`, as used in the `get_dummies` column names.  For the
string cells of a categorical column this is the string itself; the numeric
rendering approximates Python's float formatting (the claims only exercise
string categories). -/
def valName : Val → String
  | Val.num q => toString q
  | Val.str s => s
  | Val.nan => "nan"

/-- The comparison `pd.get_dummies` sorts the distinct values with.  On cells
of one kind it is the Python order (numeric order, lexicographic string
order); columns mixing kinds make Python's sort raise, so the cross-kind
branches are arbitrary and never exercised by the claims. -/
def valLeb : Val → Val → Bool
  | Val.num a, Val.num b => decide (a ≤ b)
  | Val.num _, _ => true
  | Val.str a, Val.str b => decide (a ≤ b)
  | Val.str _, Val.nan => true
  | Val.str _, Val.num _ => false
  | Val.nan, Val.nan => true
  | Val.nan, _ => false

/-- Ordered insertion for the sort below. -/
def insertVal (v : Val) : List Val → List Val
  | [] => [v]
  | x :: xs => if valLeb v x then v :: x :: xs else x :: insertVal v xs

/-- Insertion sort by `valLeb` (the sorted order of `get_dummies` columns). -/
def sortVals : List Val → List Val
  | [] => []
  | x :: xs => insertVal x (sortVals xs)

theorem insertVal_perm (v : Val) (l : List Val) :
    List.Perm (insertVal v l) (v :: l) := by
  induction l with
  | nil => exact List.Perm.refl _
  | cons x t ih =>
      cases h : valLeb v x
      · rw [insertVal, if_neg (by simp [h])]
        exact List.Perm.trans (List.Perm.cons x ih) (List.Perm.swap v x t)
      · rw [insertVal, if_pos (by simp [h])]

theorem sortVals_perm (l : List Val) : List.Perm (sortVals l) l := by
  induction l with
  | nil => exact List.Perm.refl _
  | cons x t ih =>
      exact List.Perm.trans (insertVal_perm x (sortVals t)) (List.Perm.cons x ih)

/-! ### `CustomOHETransformer` (claims C5 and C10)

Source: `CustomOHETransformer.transform` in `src/library.py`: assert the
target column exists; build `dummies = pd.get_dummies(X[target],
prefix=target).astype(int)` — one 0/1 column per distinct *non-missing* value
of the column (`get_dummies` drops NaN, so a missing cell gets all-zero
indicators), in sorted value order, named `<target>_<value>`; copy `X`; drop
the target column (`DataFrame.drop` returns a new frame); then assign each
dummy column with `X_transformed[col] = dummies[col]` — which appends at the
end for a new name but overwrites in place an existing column of the same
name. -/

/-- The distinct non-missing values of the column, in the sorted order
`get_dummies` uses. -/
def dummyVals (xs : List Val) : List Val :=
  sortVals (distincts (xs.filter (fun v => !(isMissing v))))

/-- The 0/1 indicator column of value `v`. -/
def indicatorCol (xs : List Val) (v : Val) : List Val :=
  xs.map (fun x => if x = v then Val.num 1 else Val.num 0)

/-- The `<target>_<value>` naming convention of `get_dummies(prefix=...)`. -/
def dummyName (target : String) (v : Val) : String :=
  target ++ "_" ++ valName v

/-- The full `get_dummies(...).astype(int)` result: named indicator columns. -/
def oheDummies (target : String) (xs : List Val) : List (String × List Val) :=
  (dummyVals xs).map (fun v => (dummyName target v, indicatorCol xs v))

/-- The assignment loop `for col in dummies.columns: X_[col] = dummies[col]`. -/
def addCols (t : Table Val) (cols : List (String × List Val)) : Table Val :=
  cols.foldl (fun acc p => acc.setCol p.1 p.2) t

structure CustomOHETransformer where
  target_column : String

/-- `CustomOHETransformer.transform`: assert the column exists; build the
dummies; copy; drop the target column; assign the dummy columns. -/
def CustomOHETransformer.transform (self : CustomOHETransformer)
    (X : Table Val) : Except String (Table Val) :=
  match X.lookup self.target_column with
  | none => Except.error ("CustomOHETransformer.transform unknown column")
  | some xs =>
      Except.ok (addCols (X.dropCol self.target_column)
        (oheDummies self.target_column xs))

/-- Number of occurrences of the indicator `1` in a row of optional cells. -/
def countOnes (cells : List (Option Val)) : Nat :=
  (cells.filter (fun c => decide (c = some (Val.num 1)))).length

theorem nodup_dummyVals (xs : List Val) : (dummyVals xs).Nodup :=
  (sortVals_perm _).nodup_iff.mpr
    (nodup_distincts (xs.filter (fun v => !(isMissing v))))

theorem mem_dummyVals (xs : List Val) (v : Val) :
    v ∈ dummyVals xs ↔ (v ∈ xs ∧ isMissing v = false) := by
  rw [dummyVals, (sortVals_perm _).mem_iff, mem_distincts, List.mem_filter]
  simp

theorem countOnes_indicator (x : Val) (l : List Val) (hnd : l.Nodup) :
    countOnes (l.map (fun v => some (if x = v then Val.num 1 else Val.num 0)))
      = if x ∈ l then 1 else 0 := by
  induction l with
  | nil => simp [countOnes]
  | cons v t ih =>
      have hvt : v ∉ t := (List.nodup_cons.mp hnd).1
      have htail := ih (List.nodup_cons.mp hnd).2
      by_cases hxv : x = v
      · have hxt : x ∉ t := fun hx => hvt (hxv ▸ hx)
        rw [if_pos (by rw [hxv]; exact List.mem_cons_self v t)]
        rw [if_neg hxt] at htail
        simp only [List.map_cons, countOnes, List.filter_cons, if_pos hxv]
        simp only [countOnes] at htail
        simp [htail]
      · rw [List.map_cons, if_neg hxv]
        simp only [countOnes, List.filter_cons]
        rw [if_neg (by simp)]
        show countOnes _ = _
        rw [htail]
        by_cases hxt : x ∈ t
        · rw [if_pos hxt, if_pos (List.mem_cons_of_mem v hxt)]
        · rw [if_neg hxt, if_neg (fun hm => by
            rcases List.mem_cons.mp hm with h | h
            · exact hxv h
            · exact hxt h)]

theorem dummyName_inj (t : String) (u v : Val) (hu : Val.isStr u = true)
    (hv : Val.isStr v = true) (h : dummyName t u = dummyName t v) : u = v := by
  cases u with
  | num q => exact absurd hu (by simp [Val.isStr])
  | nan => exact absurd hu (by simp [Val.isStr])
  | str s1 =>
      cases v with
      | num q => exact absurd hv (by simp [Val.isStr])
      | nan => exact absurd hv (by simp [Val.isStr])
      | str s2 =>
          rw [dummyName, dummyName, valName, valName] at h
          have hd : (t ++ "_").data ++ s1.data = (t ++ "_").data ++ s2.data := by
            have h1 := congrArg String.data h
            simpa [String.data_append, List.append_assoc] using h1
          have : s1.data = s2.data := List.append_cancel_left hd
          exact congrArg Val.str (String.ext this)

theorem nodup_dummyNames (t : String) (xs : List Val)
    (hstr : ∀ v ∈ dummyVals xs, Val.isStr v = true) :
    ((oheDummies t xs).map Prod.fst).Nodup := by
  have : (oheDummies t xs).map Prod.fst = (dummyVals xs).map (dummyName t) := by
    rw [oheDummies, List.map_map]
    rfl
  rw [this]
  exact List.Nodup.map_on
    (fun u hu v hv h => dummyName_inj t u v (hstr u hu) (hstr v hv) h)
    (nodup_dummyVals xs)

theorem addCols_lookup_not_mem (cols : List (String × List Val)) :
    ∀ (t : Table Val) (c : String), c ∉ cols.map Prod.fst →
      (addCols t cols).lookup c = t.lookup c := by
  induction cols with
  | nil =>
      intro t c _
      rfl
  | cons q rest ih =>
      intro t c hc
      rw [List.map_cons, List.mem_cons] at hc
      push_neg at hc
      show (addCols (t.setCol q.1 q.2) rest).lookup c = t.lookup c
      rw [ih (t.setCol q.1 q.2) c hc.2]
      exact lookup_setCol_ne t q.1 c q.2 hc.1

theorem addCols_lookup (cols : List (String × List Val)) :
    ∀ (t : Table Val), (cols.map Prod.fst).Nodup →
      ∀ p ∈ cols, (addCols t cols).lookup p.1 = some p.2 := by
  induction cols with
  | nil =>
      intro t _ p hp
      cases hp
  | cons q rest ih =>
      intro t hnd p hp
      have hq : q.1 ∉ rest.map Prod.fst := by
        rw [List.map_cons] at hnd
        exact (List.nodup_cons.mp hnd).1
      rcases List.mem_cons.mp hp with rfl | hp'
      · show (addCols (t.setCol p.1 p.2) rest).lookup p.1 = some p.2
        rw [addCols_lookup_not_mem rest (t.setCol p.1 p.2) p.1 hq]
        exact lookup_setCol_self t p.1 p.2
      · exact ih (t.setCol q.1 q.2)
          (by rw [List.map_cons] at hnd; exact (List.nodup_cons.mp hnd).2) p hp'

theorem names_append {α : Type} (t u : Table α) :
    (t ++ u).names = t.names ++ u.names := List.map_append Prod.fst t u

theorem addCols_fresh (cols : List (String × List Val)) :
    ∀ (t : Table Val), (cols.map Prod.fst).Nodup →
      (∀ p ∈ cols, p.1 ∉ t.names) → addCols t cols = t ++ cols := by
  induction cols with
  | nil =>
      intro t _ _
      simp [addCols]
  | cons q rest ih =>
      intro t hnd hfresh
      rw [List.map_cons] at hnd
      show addCols (t.setCol q.1 q.2) rest = t ++ q :: rest
      rw [setCol_of_not_mem_names t q.1 q.2 (hfresh q (List.mem_cons_self q rest))]
      have hq1 : q.1 ∉ rest.map Prod.fst := (List.nodup_cons.mp hnd).1
      rw [ih (t ++ [q]) (List.nodup_cons.mp hnd).2 ?_]
      · rw [List.append_assoc]
        rfl
      · intro p hp
        rw [names_append]
        intro hmem
        rcases List.mem_append.mp hmem with h | h
        · exact hfresh p (List.mem_cons_of_mem q hp) h
        · have hpq : p.1 = q.1 := by
            simpa [Table.names] using h
          exact hq1 (hpq ▸ List.mem_map_of_mem Prod.fst hp)

theorem map_congr_mem {α β : Type} (l : List α) (f g : α → β)
    (h : ∀ a ∈ l, f a = g a) : l.map f = l.map g := by
  induction l with
  | nil => rfl
  | cons x t ih =>
      rw [List.map_cons, List.map_cons, h x (List.mem_cons_self x t),
        ih (fun a ha => h a (List.mem_cons_of_mem x ha))]

/-- Claim C5 (amended): for a table containing the target column, the one-hot
transform produces one indicator column per distinct NON-MISSING value
observed in the column, named `<target>_<value>` and coded 0/1; every row
whose cell is non-missing has exactly one indicator set to 1, while a row
with a missing cell has ALL indicators 0 (`get_dummies` drops NaN); and each
produced indicator is a column of the output table.  `hstr` says the column
is a categorical (string-or-missing) column — the only case where pandas can
sort the distinct values. -/
theorem C5_amended_ohe (self : CustomOHETransformer) (X : Table Val)
    (xs : List Val) (hX : X.lookup self.target_column = some xs)
    (hstr : ∀ v ∈ xs, Val.isStr v = true ∨ isMissing v = true) :
    ((oheDummies self.target_column xs).length =
      (distincts (xs.filter (fun v => !(isMissing v)))).length) ∧
    ((oheDummies self.target_column xs).map Prod.fst =
      (dummyVals xs).map (dummyName self.target_column)) ∧
    (∀ p ∈ oheDummies self.target_column xs, ∀ cell ∈ p.2,
      cell = Val.num 0 ∨ cell = Val.num 1) ∧
    (∀ (i : Nat) (x : Val), xs[i]? = some x → isMissing x = false →
      countOnes ((oheDummies self.target_column xs).map
        (fun p => p.2[i]?)) = 1) ∧
    (∀ (i : Nat) (x : Val), xs[i]? = some x → isMissing x = true →
      countOnes ((oheDummies self.target_column xs).map
        (fun p => p.2[i]?)) = 0) ∧
    (∀ T, self.transform X = Except.ok T →
      ∀ p ∈ oheDummies self.target_column xs, T.lookup p.1 = some p.2) := by
  have hrow : ∀ (i : Nat) (x : Val), xs[i]? = some x →
      (oheDummies self.target_column xs).map (fun p => p.2[i]?) =
        (dummyVals xs).map
          (fun v => some (if x = v then Val.num 1 else Val.num 0)) := by
    intro i x hx
    rw [oheDummies, List.map_map]
    refine map_congr_mem _ _ _ (fun v _ => ?_)
    show (indicatorCol xs v)[i]? = _
    rw [indicatorCol, List.getElem?_map, hx]
    rfl
  refine ⟨?_, ?_, ?_, ?_, ?_, ?_⟩
  · rw [oheDummies, List.length_map, dummyVals, (sortVals_perm _).length_eq]
  · rw [oheDummies, List.map_map]
    rfl
  · intro p hp cell hcell
    obtain ⟨v, _, rfl⟩ := List.mem_map.mp hp
    obtain ⟨x, _, rfl⟩ := List.mem_map.mp hcell
    by_cases hxv : x = v
    · exact Or.inr (by rw [if_pos hxv])
    · exact Or.inl (by rw [if_neg hxv])
  · intro i x hx hmiss
    rw [hrow i x hx, countOnes_indicator x _ (nodup_dummyVals xs),
      if_pos ((mem_dummyVals xs x).mpr ⟨List.getElem?_mem hx, hmiss⟩)]
  · intro i x hx hmiss
    rw [hrow i x hx, countOnes_indicator x _ (nodup_dummyVals xs),
      if_neg (fun hm => by
        have := ((mem_dummyVals xs x).mp hm).2
        rw [hmiss] at this
        exact absurd this (by decide))]
  · intro T hT p hp
    rw [CustomOHETransformer.transform, hX] at hT
    obtain rfl := Except.ok.inj hT
    refine addCols_lookup _ _ ?_ p hp
    refine nodup_dummyNames self.target_column xs (fun v hv => ?_)
    obtain ⟨hvx, hvm⟩ := (mem_dummyVals xs v).mp hv
    rcases hstr v hvx with h | h
    · exact h
    · rw [hvm] at h
      exact absurd h Bool.false_ne_true

/-- Counterexample to claim C5 as stated: on the categorical column
`['a', NaN]` the transform produces the single indicator column `c_a`
(`get_dummies` drops the missing value), and in the missing row NO indicator
is set to 1 — not "exactly one". -/
theorem C5_counterexample :
    CustomOHETransformer.transform ⟨("c")⟩
        ([(("c"), [Val.str ("a"), Val.nan])]) =
      Except.ok ([(("c_a"), [Val.num 1, Val.num 0])]) ∧
    countOnes ((oheDummies ("c") ([Val.str ("a"), Val.nan])).map
      (fun p => p.2[1]?)) = 0 :=
  ⟨rfl, rfl⟩

/-- Witness for the amended C5: on the column `['a','b']` the first row has
exactly one indicator set to 1. -/
theorem C5_witness :
    countOnes ((oheDummies ("cat") ([Val.str ("a"), Val.str ("b")])).map
      (fun p => p.2[0]?)) = 1 :=
  (C5_amended_ohe ⟨("cat")⟩ ([(("cat"), [Val.str ("a"), Val.str ("b")])])
    ([Val.str ("a"), Val.str ("b")]) rfl (by decide)).2.2.2.1 0
    (Val.str ("a")) rfl rfl

/-- Claim C10 (amended): provided no produced indicator name collides with a
remaining column name, the output is exactly the remaining original columns
in their original relative order followed by the indicator columns appended
at the end — in particular the indicators never occupy the removed target
column's slot among the original columns.  (Under a name collision the
indicator instead overwrites the like-named original column in place; see the
counterexample.) -/
theorem C10_amended_ohe_order (self : CustomOHETransformer) (X : Table Val)
    (xs : List Val) (hX : X.lookup self.target_column = some xs)
    (hstr : ∀ v ∈ xs, Val.isStr v = true ∨ isMissing v = true)
    (hfresh : ∀ nm ∈ (oheDummies self.target_column xs).map Prod.fst,
      nm ∉ (X.dropCol self.target_column).names) :
    self.transform X =
      Except.ok ((X.dropCol self.target_column) ++
        oheDummies self.target_column xs) := by
  rw [CustomOHETransformer.transform, hX]
  show Except.ok (addCols (X.dropCol self.target_column)
    (oheDummies self.target_column xs)) = _
  rw [addCols_fresh (oheDummies self.target_column xs)
    (X.dropCol self.target_column)
    (nodup_dummyNames self.target_column xs (fun v hv => by
      obtain ⟨hvx, hvm⟩ := (mem_dummyVals xs v).mp hv
      rcases hstr v hvx with h | h
      · exact h
      · rw [hvm] at h
        exact absurd h (by decide)))
    (fun p hp => hfresh p.1 (List.mem_map_of_mem Prod.fst hp))]

/-- Counterexample to claim C10 as stated: the table has columns
`['cat', 'cat_a']` and the target column `cat` holds `['a']`; the produced
indicator is also named `cat_a`, so the assignment overwrites the existing
`cat_a` column in place — the output is the single column `cat_a` holding the
indicator, with nothing appended after the remaining original columns (the
claim would give two columns, original `cat_a` then the indicator). -/
theorem C10_counterexample :
    CustomOHETransformer.transform ⟨("cat")⟩
        ([(("cat"), [Val.str ("a")]), (("cat_a"), [Val.num 99])]) =
      Except.ok ([(("cat_a"), [Val.num 1])]) ∧
    ([(("cat_a"), [Val.num 1])] : Table Val).length = 1 :=
  ⟨rfl, rfl⟩

/-- Witness for the amended C10 at a collision-free table. -/
theorem C10_witness :
    CustomOHETransformer.transform ⟨("cat")⟩
        ([(("cat"), [Val.str ("a")]), (("z"), [Val.num 5])]) =
      Except.ok
        ((Table.dropCol ([(("cat"), [Val.str ("a")]), (("z"), [Val.num 5])])
          ("cat")) ++ oheDummies ("cat") ([Val.str ("a")])) :=
  C10_amended_ohe_order ⟨("cat")⟩
    ([(("cat"), [Val.str ("a")]), (("z"), [Val.num 5])]) ([Val.str ("a")])
    rfl (by decide) (by decide)

/-! ### `CustomDropColumnsTransformer` (claim C8)

Source: `CustomDropColumnsTransformer.transform` in `src/library.py`: copy
the frame; compute `missing_columns = set(column_list) - set(X.columns)`.
In `keep` mode a nonempty missing set is a fatal assert; otherwise the frame
is reduced to `X_[ [c for c in column_list if c in df_columns] ]` — the listed
columns in listed order.  In `drop` mode a nonempty missing set only prints a
warning, and the listed columns that are present are dropped. -/

inductive DropAction
  | keep
  | drop
  deriving DecidableEq

structure CustomDropColumnsTransformer where
  column_list : List String
  action : DropAction

/-- The listed columns absent from the table (`missing_columns`); in `keep`
mode their presence is fatal, in `drop` mode they only trigger the printed
warning. -/
def missingCols {α : Type} (cols : List String) (X : Table α) : List String :=
  cols.filter (fun c => decide (c ∉ X.names))

/-- Column selection `X[cols]`: the named columns in the given order. -/
def selectCols {α : Type} (X : Table α) (cols : List String) : Table α :=
  cols.filterMap (fun c => (X.lookup c).map (fun vs => (c, vs)))

/-- `CustomDropColumnsTransformer.transform`. -/
def CustomDropColumnsTransformer.transform {α : Type}
    (self : CustomDropColumnsTransformer) (X : Table α) :
    Except String (Table α) :=
  match self.action with
  | DropAction.keep =>
      if missingCols self.column_list X = [] then
        Except.ok (selectCols X
          (self.column_list.filter (fun c => decide (c ∈ X.names))))
      else Except.error ("Columns are not in the data table")
  | DropAction.drop =>
      Except.ok (X.filter (fun p => decide (p.1 ∉ self.column_list)))

theorem missingCols_eq_nil {α : Type} (cols : List String) (X : Table α) :
    missingCols cols X = [] ↔ ∀ c ∈ cols, c ∈ X.names := by
  rw [missingCols, List.filter_eq_nil_iff]
  simp

theorem missingCols_ne_nil {α : Type} (cols : List String) (X : Table α) :
    missingCols cols X ≠ [] ↔ ∃ c ∈ cols, c ∉ X.names := by
  rw [Ne, missingCols_eq_nil]
  push_neg
  rfl

theorem lookup_isSome_of_mem_names {α : Type} (t : Table α) (c : String)
    (h : c ∈ t.names) : ∃ vs, t.lookup c = some vs := by
  induction t with
  | nil => simp [Table.names] at h
  | cons p rest ih =>
      obtain ⟨n, ws⟩ := p
      by_cases hp : n = c
      · exact ⟨ws, by simp [Table.lookup, hp]⟩
      · have hc : c ∈ Table.names rest := by
          have h2 : c ∈ n :: Table.names rest := h
          rcases List.mem_cons.mp h2 with h1 | h1
          · exact absurd h1.symm hp
          · exact h1
        obtain ⟨vs, hvs⟩ := ih hc
        exact ⟨vs, by simp [Table.lookup, hp, hvs]⟩

theorem selectCols_names {α : Type} (cols : List String) (X : Table α)
    (h : ∀ c ∈ cols, c ∈ X.names) : (selectCols X cols).names = cols := by
  induction cols with
  | nil => rfl
  | cons c t ih =>
      obtain ⟨vs, hvs⟩ :=
        lookup_isSome_of_mem_names X c (h c (List.mem_cons_self c t))
      have ht := ih (fun c hc => h c (List.mem_cons_of_mem _ hc))
      simp only [selectCols, List.filterMap_cons, hvs, Option.map_some']
      simpa [Table.names] using ht

theorem selectCols_lookup {α : Type} (cols : List String) (X : Table α) :
    ∀ (c : String) (vs : List α), c ∈ cols → X.lookup c = some vs →
      (selectCols X cols).lookup c = some vs := by
  induction cols with
  | nil =>
      intro c vs hc
      cases hc
  | cons c0 t ih =>
      intro c vs hc hl
      by_cases he : c0 = c
      · subst he
        simp only [selectCols, List.filterMap_cons, hl, Option.map_some']
        simp [Table.lookup]
      · rcases List.mem_cons.mp hc with h1 | h1
        · exact absurd h1.symm he
        · cases hx : X.lookup c0 with
          | none =>
              simp only [selectCols, List.filterMap_cons, hx, Option.map_none']
              exact ih c vs h1 hl
          | some ws =>
              simp only [selectCols, List.filterMap_cons, hx, Option.map_some']
              show Table.lookup ((c0, ws) :: _) c = some vs
              simp only [Table.lookup, if_neg he]
              exact ih c vs h1 hl

theorem names_filter {α : Type} (X : Table α) (q : String → Bool) :
    Table.names (X.filter (fun p => q p.1)) = X.names.filter q := by
  induction X with
  | nil => rfl
  | cons p t ih =>
      cases h : q p.1
      · have h1 : List.filter (fun pr => q pr.1) (p :: t) =
            List.filter (fun pr => q pr.1) t := by
          rw [List.filter_cons, if_neg (by simp [h])]
        have h2 : List.filter q (Table.names (p :: t)) =
            List.filter q (Table.names t) := by
          show List.filter q (p.1 :: Table.names t) = _
          rw [List.filter_cons, if_neg (by simp [h])]
        rw [h1, h2, ih]
      · have h1 : List.filter (fun pr => q pr.1) (p :: t) =
            p :: List.filter (fun pr => q pr.1) t := by
          rw [List.filter_cons, if_pos (by simp [h])]
        have h2 : List.filter q (Table.names (p :: t)) =
            p.1 :: List.filter q (Table.names t) := by
          show List.filter q (p.1 :: Table.names t) = _
          rw [List.filter_cons, if_pos (by simp [h])]
        rw [h1, h2, ← ih]
        rfl

/-- Claim C8: in `keep` mode, `transform` is fatal exactly when a listed
column is absent, and otherwise returns exactly the listed columns in the
listed order with each kept column's values (hence the row count) preserved;
in `drop` mode the call always succeeds, the present listed columns are
removed (the others keep their relative order), and the non-fatal warning
condition (a nonempty missing set) holds exactly when a listed column is
absent. -/
theorem C8_drop_keep_selector (α : Type) (self : CustomDropColumnsTransformer)
    (X : Table α) :
    (self.action = DropAction.keep →
      (isFailure (self.transform X) = true ↔
        ∃ c ∈ self.column_list, c ∉ X.names) ∧
      ((∀ c ∈ self.column_list, c ∈ X.names) →
        self.transform X = Except.ok (selectCols X self.column_list) ∧
        (selectCols X self.column_list).names = self.column_list ∧
        (∀ (c : String) (vs : List α), c ∈ self.column_list →
          X.lookup c = some vs →
          (selectCols X self.column_list).lookup c = some vs))) ∧
    (self.action = DropAction.drop →
      self.transform X =
        Except.ok (X.filter (fun p => decide (p.1 ∉ self.column_list))) ∧
      Table.names (X.filter (fun p => decide (p.1 ∉ self.column_list))) =
        X.names.filter (fun c => decide (c ∉ self.column_list)) ∧
      (missingCols self.column_list X ≠ [] ↔
        ∃ c ∈ self.column_list, c ∉ X.names)) := by
  obtain ⟨cols, act⟩ := self
  constructor
  · intro ha
    cases act with
    | drop => exact DropAction.noConfusion ha
    | keep =>
        constructor
        · rw [← missingCols_ne_nil]
          by_cases hm : missingCols cols X = []
          · simp [CustomDropColumnsTransformer.transform, hm, isFailure]
          · simp [CustomDropColumnsTransformer.transform, hm, isFailure]
        · intro h
          have hm : missingCols cols X = [] := (missingCols_eq_nil cols X).mpr h
          have hf : cols.filter (fun c => decide (c ∈ X.names)) = cols :=
            List.filter_eq_self.mpr (fun c hc => by simpa using h c hc)
          refine ⟨?_, selectCols_names cols X h, selectCols_lookup cols X⟩
          show (if missingCols cols X = [] then _ else _) = _
          rw [if_pos hm, hf]
  · intro ha
    cases act with
    | keep => exact DropAction.noConfusion ha
    | drop =>
        refine ⟨rfl, ?_, missingCols_ne_nil cols X⟩
        exact names_filter X (fun c => decide (c ∉ cols))

/-- Witness for C8: keeping `['A']` from the two-column table `['A','B']`
succeeds and selects exactly column `A`. -/
theorem C8_witness :
    CustomDropColumnsTransformer.transform ⟨[("A")], DropAction.keep⟩
        ([(("A"), [(1:ℚ)]), (("B"), [(2:ℚ)])]) =
      Except.ok (selectCols ([(("A"), [(1:ℚ)]), (("B"), [(2:ℚ)])]) ([("A")])) :=
  (((C8_drop_keep_selector ℚ ⟨[("A")], DropAction.keep⟩
    ([(("A"), [(1:ℚ)]), (("B"), [(2:ℚ)])])).1 rfl).2 (by decide)).1

/-! ### Claim C9: copy-on-write (no transform mutates its argument)

Python/pandas object state is modelled by an explicit heap of tables; a
DataFrame variable is a reference (index) into the heap.  `X.copy()`
allocates a fresh slot holding the same table; pandas operations that return
a new frame (`DataFrame.drop`, column selection `X[cols]`, the `DataFrame`
constructor used by the KNN wrapper) also allocate; the in-place column
assignment `X_[c] = vs` updates the referenced slot.  Each program below
mirrors the pandas operations of its source `transform` method, receiving the
caller's reference `r`; the claim is that the table at `r` is unchanged after
every program that completes. -/

abbrev Heap : Type := List (Table Val)

/-- The table an object reference denotes. -/
def heapGet (h : Heap) (r : Nat) : Table Val := h.getD r []

/-- Allocate a fresh object. -/
def heapAlloc (h : Heap) (t : Table Val) : Heap × Nat := (h ++ [t], h.length)

/-- Overwrite the object at a reference (in-place mutation). -/
def heapSet (h : Heap) (r : Nat) (t : Table Val) : Heap := h.set r t

/-- `X.copy()`. -/
def copyProg (h : Heap) (r : Nat) : Heap × Nat := heapAlloc h (heapGet h r)

/-- The in-place column assignment `X_[c] = vs` on the frame at `r`. -/
def setColProg (h : Heap) (r : Nat) (c : String) (vs : List Val) : Heap :=
  heapSet h r ((heapGet h r).setCol c vs)

/-- `Series.clip` on one heterogeneous cell (`NaN` passes through). -/
def valClip (lo hi : ℚ) : Val → Val
  | Val.num q => Val.num (clipQ lo hi q)
  | v => v

/-- Robust scaling `(v - med) / iqr` on one cell (`NaN` stays `NaN`). -/
def valScale (m i : ℚ) : Val → Val
  | Val.num q => Val.num ((q - m) / i)
  | v => v

/-- `Series.map(encoding_dict)` on one cell: unseen keys become `NaN`. -/
def encodeVal (enc : List (Val × ℚ)) (v : Val) : Val :=
  match dictLookup enc v with
  | some q => Val.num q
  | none => Val.nan

/-- Heap program of `CustomMappingTransformer.transform`: assert the column,
copy, replace the column on the copy. -/
def mappingProg (self : CustomMappingTransformer Val) (h : Heap) (r : Nat) :
    Except String (Heap × Nat) :=
  match (heapGet h r).lookup self.mapping_column with
  | none => Except.error ("unknown column")
  | some xs =>
      let p := copyProg h r
      Except.ok (setColProg p.1 p.2 self.mapping_column
        (replaceVals self.mapping_dict xs), p.2)

/-- Heap program of `CustomOHETransformer.transform`: assert the column, copy,
drop the target column (a new frame), assign each dummy column in place. -/
def oheProg (self : CustomOHETransformer) (h : Heap) (r : Nat) :
    Except String (Heap × Nat) :=
  match (heapGet h r).lookup self.target_column with
  | none => Except.error ("unknown column")
  | some xs =>
      let p := copyProg h r
      let p2 := heapAlloc p.1 ((heapGet p.1 p.2).dropCol self.target_column)
      Except.ok ((oheDummies self.target_column xs).foldl
        (fun acc q => setColProg acc p2.2 q.1 q.2) p2.1, p2.2)

/-- Heap program of `CustomDropColumnsTransformer.transform`: copy, then the
keep-selection or drop (both return new frames). -/
def dropColsProg (self : CustomDropColumnsTransformer) (h : Heap) (r : Nat) :
    Except String (Heap × Nat) :=
  let p := copyProg h r
  match self.action with
  | DropAction.keep =>
      if missingCols self.column_list (heapGet h r) = [] then
        Except.ok (heapAlloc p.1 (selectCols (heapGet p.1 p.2)
          (self.column_list.filter
            (fun c => decide (c ∈ (heapGet h r).names)))))
      else Except.error ("Columns are not in the data table")
  | DropAction.drop =>
      Except.ok (heapAlloc p.1 ((heapGet p.1 p.2).filter
        (fun q => decide (q.1 ∉ self.column_list))))

/-- Heap program of `CustomSigma3Transformer.transform`: assert fitted and
the column, copy, clip the column in place on the copy. -/
def sigma3Prog (self : CustomSigma3Transformer) (h : Heap) (r : Nat) :
    Except String (Heap × Nat) :=
  match self.low_wall, self.high_wall with
  | some lo, some hi =>
      match (heapGet h r).lookup self.target_column with
      | none => Except.error ("unknown column")
      | some xs =>
          let p := copyProg h r
          Except.ok (setColProg p.1 p.2 self.target_column
            (xs.map (valClip lo hi)), p.2)
  | _, _ => Except.error ("fit has not been called yet")

/-- Heap program of `CustomTukeyTransformer.transform`: assert fitted and the
column, copy, clip with the fence-selected pair in place on the copy. -/
def tukeyProg (self : CustomTukeyTransformer) (h : Heap) (r : Nat) :
    Except String (Heap × Nat) :=
  match self.selected with
  | some b =>
      match (heapGet h r).lookup self.target_column with
      | none => Except.error ("unknown column")
      | some xs =>
          let p := copyProg h r
          Except.ok (setColProg p.1 p.2 self.target_column
            (xs.map (valClip b.1 b.2)), p.2)
  | none => Except.error ("fit has not been called yet")

/-- Heap program of `CustomRobustTransformer.transform`: assert fitted, copy,
and scale the column in place on the copy only when the IQR is nonzero. -/
def robustProg (self : CustomRobustTransformer) (h : Heap) (r : Nat) :
    Except String (Heap × Nat) :=
  match self.iqr, self.med with
  | some i, some m =>
      let p := copyProg h r
      if i = 0 then Except.ok p
      else
        match (heapGet h r).lookup self.target_column with
        | none => Except.error ("KeyError")
        | some xs =>
            Except.ok (setColProg p.1 p.2 self.target_column
              (xs.map (valScale m i)), p.2)
  | _, _ => Except.error ("NotFittedError")

/-- Heap program of `CustomKNNTransformer.transform`: raise if unfitted;
otherwise the external imputer reads the frame and a brand-new `DataFrame` is
allocated from its output — the input frame is never written. -/
def knnProg (impute : Table Val → Table Val) (fitted : Bool) (h : Heap)
    (r : Nat) : Except String (Heap × Nat) :=
  if fitted then Except.ok (heapAlloc h (impute (heapGet h r)))
  else Except.error ("This CustomKNNTransformer instance is not fitted yet")

/-- Heap program of `CustomTargetTransformer.transform`: assert the encoding
dictionary is truthy, copy, map the target column in place on the copy. -/
def targetProg (self : CustomTargetTransformer Val) (h : Heap) (r : Nat) :
    Except String (Heap × Nat) :=
  match self.encoding_dict_ with
  | [] => Except.error ("not fitted")
  | _ :: _ =>
      match (heapGet h r).lookup self.col with
      | none => Except.error ("KeyError")
      | some xs =>
          let p := copyProg h r
          Except.ok (setColProg p.1 p.2 self.col
            (xs.map (encodeVal self.encoding_dict_)), p.2)

/-- A heap program never mutates the caller's frame: whenever it completes,
the table at the caller's reference is unchanged. -/
def preservesCaller (prog : Heap → Nat → Except String (Heap × Nat)) : Prop :=
  ∀ (h : Heap) (r : Nat) (res : Heap × Nat), r < h.length →
    prog h r = Except.ok res → heapGet res.1 r = heapGet h r

theorem getD_append_lt : ∀ (l l2 : List (Table Val)) (n : Nat),
    n < l.length → (l ++ l2).getD n [] = l.getD n []
  | [], _, n, h => absurd h (Nat.not_lt_zero n)
  | _ :: _, _, 0, _ => rfl
  | _ :: l, l2, n + 1, h => getD_append_lt l l2 n (Nat.lt_of_succ_lt_succ h)

theorem getD_set_ne : ∀ (l : List (Table Val)) (s r : Nat) (t : Table Val),
    r ≠ s → (l.set s t).getD r [] = l.getD r []
  | [], _, _, _, _ => rfl
  | _ :: _, 0, 0, _, hne => absurd rfl hne
  | _ :: _, 0, _ + 1, _, _ => rfl
  | _ :: _, _ + 1, 0, _, _ => rfl
  | _ :: l, s + 1, r + 1, t, hne =>
      getD_set_ne l s r t (fun hh => hne (congrArg Nat.succ hh))

theorem heapGet_heapSet_ne (h : Heap) (s r : Nat) (t : Table Val)
    (hne : r ≠ s) : heapGet (heapSet h s t) r = heapGet h r :=
  getD_set_ne h s r t hne

theorem heapGet_append (h : Heap) (t : Table Val) (r : Nat)
    (hr : r < h.length) : heapGet (h ++ [t]) r = heapGet h r :=
  getD_append_lt h [t] r hr

theorem heapGet_copy_setCol (h : Heap) (r : Nat) (hr : r < h.length)
    (c : String) (vs : List Val) :
    heapGet (setColProg (copyProg h r).1 (copyProg h r).2 c vs) r =
      heapGet h r := by
  have hne : r ≠ h.length := Nat.ne_of_lt hr
  show heapGet (heapSet (h ++ [heapGet h r]) h.length _) r = heapGet h r
  rw [heapGet_heapSet_ne _ _ _ _ hne, heapGet_append h _ r hr]

theorem heapGet_foldl_setCol (cols : List (String × List Val)) :
    ∀ (h : Heap) (s r : Nat), r ≠ s →
      heapGet (cols.foldl (fun acc q => setColProg acc s q.1 q.2) h) r =
        heapGet h r := by
  induction cols with
  | nil =>
      intro h s r _
      rfl
  | cons q rest ih =>
      intro h s r hne
      show heapGet (rest.foldl _ (setColProg h s q.1 q.2)) r = _
      rw [ih (setColProg h s q.1 q.2) s r hne]
      exact heapGet_heapSet_ne h s r _ hne

/-- Claim C9: none of the eight operators' `transform` methods mutates the
caller's frame — every one either raises before writing anything or writes
only to a freshly allocated copy, so the table at the caller's reference is
observably unchanged after any completed call. -/
theorem C9_transforms_never_mutate
    (mapSelf : CustomMappingTransformer Val) (oheSelf : CustomOHETransformer)
    (dropSelf : CustomDropColumnsTransformer) (s3 : CustomSigma3Transformer)
    (tk : CustomTukeyTransformer) (rb : CustomRobustTransformer)
    (impute : Table Val → Table Val) (fitted : Bool)
    (tg : CustomTargetTransformer Val) :
    preservesCaller (mappingProg mapSelf) ∧
    preservesCaller (oheProg oheSelf) ∧
    preservesCaller (dropColsProg dropSelf) ∧
    preservesCaller (sigma3Prog s3) ∧
    preservesCaller (tukeyProg tk) ∧
    preservesCaller (robustProg rb) ∧
    preservesCaller (knnProg impute fitted) ∧
    preservesCaller (targetProg tg) := by
  have hmap : preservesCaller (mappingProg mapSelf) := by
    intro h r res hr hok
    cases hL : (heapGet h r).lookup mapSelf.mapping_column with
    | none =>
        rw [mappingProg, hL] at hok
        exact Except.noConfusion hok
    | some xs =>
        rw [mappingProg, hL] at hok
        obtain rfl := Except.ok.inj hok
        exact heapGet_copy_setCol h r hr _ _
  have hohe : preservesCaller (oheProg oheSelf) := by
    intro h r res hr hok
    cases hL : (heapGet h r).lookup oheSelf.target_column with
    | none =>
        rw [oheProg, hL] at hok
        exact Except.noConfusion hok
    | some xs =>
        rw [oheProg, hL] at hok
        obtain rfl := Except.ok.inj hok
        have hlen1 : r < (h ++ [heapGet h r]).length := by
          rw [List.length_append]
          exact Nat.lt_of_lt_of_le hr (Nat.le_add_right h.length 1)
        have hne : r ≠ (h ++ [heapGet h r]).length := Nat.ne_of_lt hlen1
        exact (heapGet_foldl_setCol (oheDummies oheSelf.target_column xs)
            _ _ r hne).trans
          ((heapGet_append _ _ r hlen1).trans (heapGet_append h _ r hr))
  have hdrop : preservesCaller (dropColsProg dropSelf) := by
    intro h r res hr hok
    obtain ⟨cols, act⟩ := dropSelf
    cases act with
    | keep =>
        by_cases hm : missingCols cols (heapGet h r) = []
        · rw [dropColsProg] at hok
          simp only [if_pos hm] at hok
          obtain rfl := Except.ok.inj hok
          show heapGet ((h ++ [heapGet h r]) ++ [_]) r = heapGet h r
          rw [heapGet_append _ _ r (by
            rw [List.length_append]
            exact Nat.lt_of_lt_of_le hr (Nat.le_add_right h.length 1)),
            heapGet_append h _ r hr]
        · rw [dropColsProg] at hok
          simp only [if_neg hm] at hok
          exact Except.noConfusion hok
    | drop =>
        rw [dropColsProg] at hok
        obtain rfl := Except.ok.inj hok
        show heapGet ((h ++ [heapGet h r]) ++ [_]) r = heapGet h r
        rw [heapGet_append _ _ r (by
          rw [List.length_append]
          exact Nat.lt_of_lt_of_le hr (Nat.le_add_right h.length 1)),
          heapGet_append h _ r hr]
  have hs3 : preservesCaller (sigma3Prog s3) := by
    intro h r res hr hok
    obtain ⟨tc, hw, lw⟩ := s3
    rcases lw with _ | lo
    · rw [sigma3Prog] at hok
      exact Except.noConfusion hok
    · rcases hw with _ | hi
      · rw [sigma3Prog] at hok
        exact Except.noConfusion hok
      · cases hL : (heapGet h r).lookup tc with
        | none =>
            rw [sigma3Prog] at hok
            rw [show CustomSigma3Transformer.target_column
              ⟨tc, some hi, some lo⟩ = tc from rfl, hL] at hok
            exact Except.noConfusion hok
        | some xs =>
            rw [sigma3Prog] at hok
            rw [show CustomSigma3Transformer.target_column
              ⟨tc, some hi, some lo⟩ = tc from rfl, hL] at hok
            obtain rfl := Except.ok.inj hok
            exact heapGet_copy_setCol h r hr _ _
  have htk : preservesCaller (tukeyProg tk) := by
    intro h r res hr hok
    cases hS : tk.selected with
    | none =>
        rw [tukeyProg, hS] at hok
        exact Except.noConfusion hok
    | some b =>
        cases hL : (heapGet h r).lookup tk.target_column with
        | none =>
            rw [tukeyProg, hS, hL] at hok
            exact Except.noConfusion hok
        | some xs =>
            rw [tukeyProg, hS, hL] at hok
            obtain rfl := Except.ok.inj hok
            exact heapGet_copy_setCol h r hr _ _
  have hrb : preservesCaller (robustProg rb) := by
    intro h r res hr hok
    obtain ⟨tc, io, mo⟩ := rb
    rcases io with _ | i
    · rw [robustProg] at hok
      exact Except.noConfusion hok
    · rcases mo with _ | m
      · rw [robustProg] at hok
        exact Except.noConfusion hok
      · by_cases hi : i = 0
        · rw [robustProg] at hok
          simp only [if_pos hi] at hok
          obtain rfl := Except.ok.inj hok
          exact heapGet_append h _ r hr
        · cases hL : (heapGet h r).lookup tc with
          | none =>
              rw [robustProg] at hok
              simp only [if_neg hi] at hok
              rw [hL] at hok
              exact Except.noConfusion hok
          | some xs =>
              rw [robustProg] at hok
              simp only [if_neg hi] at hok
              rw [hL] at hok
              obtain rfl := Except.ok.inj hok
              exact heapGet_copy_setCol h r hr _ _
  have hknn : preservesCaller (knnProg impute fitted) := by
    intro h r res hr hok
    cases fitted with
    | false =>
        rw [knnProg] at hok
        simp only [if_neg (by decide : ¬ (false = true))] at hok
        exact Except.noConfusion hok
    | true =>
        rw [knnProg] at hok
        simp only [if_pos rfl] at hok
        obtain rfl := Except.ok.inj hok
        exact heapGet_append h _ r hr
  have htg : preservesCaller (targetProg tg) := by
    intro h r res hr hok
    cases hE : tg.encoding_dict_ with
    | nil =>
        rw [targetProg, hE] at hok
        exact Except.noConfusion hok
    | cons e tl =>
        cases hL : (heapGet h r).lookup tg.col with
        | none =>
            rw [targetProg, hE, hL] at hok
            exact Except.noConfusion hok
        | some xs =>
            rw [targetProg, hE, hL] at hok
            obtain rfl := Except.ok.inj hok
            exact heapGet_copy_setCol h r hr _ _
  exact ⟨hmap, hohe, hdrop, hs3, htk, hrb, hknn, htg⟩

/-- Witness for C9: the mapping program run on a one-frame heap leaves the
caller's frame unchanged. -/
theorem C9_witness :
    heapGet ([[(("a"), [Val.num 1])], [(("a"), [Val.num 1])]]) 0 =
      heapGet ([[(("a"), [Val.num 1])]]) 0 :=
  (C9_transforms_never_mutate ⟨("a"), []⟩ ⟨("a")⟩ ⟨[], DropAction.drop⟩
      ⟨("a"), none, none⟩ ⟨("a"), Fence.inner, none, none, none, none⟩
      ⟨("a"), none, none⟩ id true ⟨("a"), 10, none, []⟩).1
    ([[(("a"), [Val.num 1])]]) 0
    (([[(("a"), [Val.num 1])], [(("a"), [Val.num 1])]]), 1)
    (by decide) rfl

end Library
